import Mathlib

/-!
Verification of the compression benchmarking core of this repository:
entropy estimation, entropy-targeted payload synthesis, the native
run-length coder, and the size-comparison report. The definitions below
are shallow embeddings of the Python functions in src/ccli.py and
src/compression_streamlit.py; bytes are modelled as natural numbers,
float arithmetic as exact rational or real arithmetic, and the random
number generator as explicitly passed choice streams.
-/

set_option maxHeartbeats 1000000
set_option maxRecDepth 100000

namespace CompressionTests

/-- Outcome of the size comparison printed by `simulate_transmission`: either
a reduction percentage or the message that compression did not reduce the
size. -/
inductive TransmissionResult where
  | reduced (percent : ℚ)
  | notReduced
  deriving DecidableEq

/-- Embedding of `simulate_transmission` (identical in ccli.py lines 86-98 and
compression_streamlit.py lines 104-113): the reduction percentage is computed
and reported only when `compressed_size < original_size`; otherwise the
"did not reduce" message is emitted and no division is performed. -/
def simulate_transmission (payload compressed_payload : List Nat) : TransmissionResult :=
  let original_size := payload.length
  let compressed_size := compressed_payload.length
  if compressed_size < original_size then
    TransmissionResult.reduced
      (((original_size : ℚ) - (compressed_size : ℚ)) / (original_size : ℚ) * 100)
  else
    TransmissionResult.notReduced

/-- The compression transforms dispatched in compression_streamlit.py main
(lines 162-177). -/
inductive Codec where
  | brotli | gzip | lz4 | deflate | rle | bzip2 | zstd | lzma
  deriving DecidableEq

/-- Codec names offered by the streamlit selectbox
(compression_streamlit.py line 155). -/
def compressionOptions : List String :=
  ["brotli", "gzip", "lz4", "deflate", "rle", "bzip2", "zstd", "lzma"]

/-- Codec names accepted by the argparse choices of the CLI variant
(ccli.py lines 107-108). -/
def ccliCompressionChoices : List String :=
  ["brotli", "gzip", "lz4", "deflate"]

/-- Embedding of the if/elif dispatch on `compression_method` in
compression_streamlit.py main (lines 162-177): a name matching no branch
resolves to no codec at all. -/
def getCodec (name : String) : Option Codec :=
  if name = "brotli" then some Codec.brotli
  else if name = "gzip" then some Codec.gzip
  else if name = "lz4" then some Codec.lz4
  else if name = "deflate" then some Codec.deflate
  else if name = "rle" then some Codec.rle
  else if name = "bzip2" then some Codec.bzip2
  else if name = "zstd" then some Codec.zstd
  else if name = "lzma" then some Codec.lzma
  else none

/-- Loop of `compress_with_rle` (compression_streamlit.py lines 25-37):
`previous_byte` and `count` track the current run, the count is capped at 255,
and each flush appends the `(previous_byte, count)` pair to the output; the
final pair is appended when the input is exhausted. -/
def rleLoop : List Nat → Nat → Nat → List Nat
  | [], previous_byte, count => [previous_byte, count]
  | current_byte :: rest, previous_byte, count =>
    if current_byte = previous_byte ∧ count < 255 then
      rleLoop rest previous_byte (count + 1)
    else
      previous_byte :: count :: rleLoop rest current_byte 1

/-- Embedding of `compress_with_rle` (compression_streamlit.py lines 16-38). -/
def compress_with_rle (data : List Nat) : List Nat :=
  match data with
  | [] => []
  | first :: rest => rleLoop rest first 1

/-- Reads a flat byte list as consecutive `(value, count)` records. -/
def toPairs : List Nat → List (Nat × Nat)
  | value :: cnt :: rest => (value, cnt) :: toPairs rest
  | _ => []

/-- Worker for `runs`: the pending maximal run is `(value, cnt)`, with no cap
on the count. -/
def runsAux : List Nat → Nat → Nat → List (Nat × Nat)
  | [], value, cnt => [(value, cnt)]
  | b :: rest, value, cnt =>
    if b = value then runsAux rest value (cnt + 1)
    else (value, cnt) :: runsAux rest b 1

/-- Maximal-run decomposition of a byte list: each record is a maximal run
of identical bytes together with its full (uncapped) length. -/
def runs : List Nat → List (Nat × Nat)
  | [] => []
  | first :: rest => runsAux rest first 1

/-- Record counts the coder emits for one maximal run of length `L`: as many
255 records as needed followed by the remainder (a run of length at most 255
yields the single count `L`). -/
def splitRunCounts (L : Nat) : List Nat :=
  if L ≤ 255 then [L] else 255 :: splitRunCounts (L - 255)
termination_by L
decreasing_by omega

/-- Expands each maximal run record into the list of `(value, count)` records
the coder emits for it. -/
def expandRuns (rs : List (Nat × Nat)) : List (Nat × Nat) :=
  rs.flatMap (fun r => (splitRunCounts r.2).map (fun c => (r.1, c)))

/-- Embedding of `calculate_entropy` (ccli.py lines 48-63 and
compression_streamlit.py lines 79-88): an empty input short-circuits to 0;
otherwise the loop over the Counter of the data subtracts `p * log2 p` for
each distinct byte value, with `p` its relative frequency. -/
noncomputable def calculate_entropy (data : List Nat) : ℝ :=
  if data = [] then 0
  else
    ∑ b ∈ data.toFinset,
      -(((data.count b : ℝ) / (data.length : ℝ)) *
        Real.logb 2 ((data.count b : ℝ) / (data.length : ℝ)))

/-- Order-0 Shannon entropy as the specification words it: the sum over each
distinct byte value occurring in the data of `-p * log2 p` with
`p = count / length`. -/
noncomputable def shannonEntropy (data : List Nat) : ℝ :=
  ∑ b ∈ data.toFinset,
    -(((data.count b : ℝ) / (data.length : ℝ)) *
      Real.logb 2 ((data.count b : ℝ) / (data.length : ℝ)))

/-- Alphabet size used by the synthesized-payload generator for a target
entropy strictly between 0 and 8: the Python expression
`int(2 ** target_entropy)`, i.e. the floor of the real power. -/
noncomputable def alphabetSize (target_entropy : ℚ) : ℕ :=
  ⌊(2 : ℝ) ^ (target_entropy : ℝ)⌋₊

/-- Embedding of `generate_random_payload_with_entropy` (ccli.py lines 65-84
and compression_streamlit.py lines 91-101). Randomness is passed explicitly:
`randint` is the one draw of `random.randint(0, 255)`, `randbits i` the i-th
draw of `random.getrandbits(8)`, and `choiceIdx i` the index into the symbol
list picked by the i-th draw of `random.choices`. -/
noncomputable def generate_random_payload_with_entropy
    (randint : Nat) (randbits choiceIdx : Nat → Nat)
    (size : Nat) (target_entropy : ℚ) : Except String (List Nat) :=
  if target_entropy < 0 ∨ 8 < target_entropy then
    Except.error "Entropy must be between 0 and 8 bits per byte."
  else if target_entropy = 0 then
    Except.ok (List.replicate size randint)
  else if target_entropy = 8 then
    Except.ok ((List.range size).map randbits)
  else
    let num_symbols := alphabetSize target_entropy
    let symbols := List.range num_symbols
    Except.ok ((List.range size).map (fun i => symbols.getD (choiceIdx i) 0))

/-- Claim C1, counterexample: with a 1-byte payload and a 2-byte compressed
output the original size is positive and the claimed formula gives -100, yet
the code reports that compression did not reduce the size instead of the
negative percentage. -/
theorem C1_counterexample :
    0 < ([0] : List Nat).length ∧
    simulate_transmission [0] [0, 1] = TransmissionResult.notReduced ∧
    TransmissionResult.notReduced ≠
      TransmissionResult.reduced
        (((([0] : List Nat).length : ℚ) - (([0, 1] : List Nat).length : ℚ)) /
          (([0] : List Nat).length : ℚ) * 100) := by
  refine ⟨by decide, by decide, by decide⟩

/-- Claim C1 (amended): the reported reduction percent equals
(original_size - compressed_size) / original_size * 100 exactly when the
compressed output is strictly smaller than the original; whenever
compressed_size is greater than or equal to original_size — including every
expansion case and original_size = 0 — the result is reported as "no
reduction" without performing the division. -/
theorem C1_reduction_percent (payload compressed_payload : List Nat) :
    (compressed_payload.length < payload.length →
      simulate_transmission payload compressed_payload =
        TransmissionResult.reduced
          (((payload.length : ℚ) - (compressed_payload.length : ℚ)) /
            (payload.length : ℚ) * 100)) ∧
    (payload.length ≤ compressed_payload.length →
      simulate_transmission payload compressed_payload =
        TransmissionResult.notReduced) := by
  constructor
  · intro h
    simp [simulate_transmission, h]
  · intro h
    simp [simulate_transmission, Nat.not_lt.mpr h]

/-- Witness for C1_reduction_percent at concrete inputs: a 2-byte payload
compressed to 1 byte reports the formula value, and the empty payload reports
no reduction. -/
theorem C1_reduction_percent_witness :
    simulate_transmission [0, 0] [0] =
      TransmissionResult.reduced
        (((([0, 0] : List Nat).length : ℚ) - (([0] : List Nat).length : ℚ)) /
          (([0, 0] : List Nat).length : ℚ) * 100) ∧
    simulate_transmission [] [] = TransmissionResult.notReduced :=
  ⟨(C1_reduction_percent [0, 0] [0]).1 (by decide),
   (C1_reduction_percent [] []).2 (by decide)⟩

/-- Claim C2, counterexample: neither "run-length" nor "zstandard" is among
the selectable codec names; the code registers those transforms under the
names "rle" and "zstd", and the CLI variant offers only four names. -/
theorem C2_counterexample :
    "run-length" ∉ compressionOptions ∧
    "zstandard" ∉ compressionOptions ∧
    getCodec "run-length" = none ∧
    getCodec "zstandard" = none ∧
    "run-length" ∉ ccliCompressionChoices := by
  refine ⟨by decide, by decide, by decide, by decide, by decide⟩

/-- Claim C2 (amended): the selectable codec names in the streamlit app are
exactly brotli, gzip, lz4, deflate, rle, bzip2, zstd, lzma — run-length coding
is registered as "rle" and zstandard as "zstd" — every listed name resolves to
a codec, any name outside the list resolves to no codec, and the CLI variant
offers only brotli, gzip, lz4, deflate. -/
theorem C2_codec_registry :
    compressionOptions =
      ["brotli", "gzip", "lz4", "deflate", "rle", "bzip2", "zstd", "lzma"] ∧
    (∀ name ∈ compressionOptions, (getCodec name).isSome = true) ∧
    (∀ name : String, name ∉ compressionOptions → getCodec name = none) ∧
    ccliCompressionChoices = ["brotli", "gzip", "lz4", "deflate"] := by
  refine ⟨rfl, by decide, ?_, rfl⟩
  intro name hname
  simp [compressionOptions] at hname
  obtain ⟨h1, h2, h3, h4, h5, h6, h7, h8⟩ := hname
  simp [getCodec, h1, h2, h3, h4, h5, h6, h7, h8]

/-- Witness for C2_codec_registry at concrete names: "gzip" resolves to a
codec and an unregistered name resolves to none. -/
theorem C2_codec_registry_witness :
    (getCodec "gzip").isSome = true ∧ getCodec "nosuch" = none :=
  ⟨C2_codec_registry.2.1 "gzip" (by decide),
   C2_codec_registry.2.2.1 "nosuch" (by decide)⟩

/-- Claim C7: a target entropy strictly below 0 or strictly above 8 makes the
generator fail with the invalid-parameter error and produce no payload, and
for any target entropy in [0, 8] that error is not raised: the generator
returns a payload. -/
theorem C7_entropy_range_check (randint : Nat) (randbits choiceIdx : Nat → Nat)
    (size : Nat) (target_entropy : ℚ) :
    ((target_entropy < 0 ∨ 8 < target_entropy) →
      generate_random_payload_with_entropy randint randbits choiceIdx size
        target_entropy =
        Except.error "Entropy must be between 0 and 8 bits per byte.") ∧
    (0 ≤ target_entropy → target_entropy ≤ 8 →
      ∃ out, generate_random_payload_with_entropy randint randbits choiceIdx size
        target_entropy = Except.ok out) := by
  constructor
  · intro h
    simp [generate_random_payload_with_entropy, h]
  · intro h0 h8
    have hcond : ¬(target_entropy < 0 ∨ 8 < target_entropy) := by
      push_neg
      exact ⟨h0, h8⟩
    unfold generate_random_payload_with_entropy
    rw [if_neg hcond]
    by_cases ht0 : target_entropy = 0
    · rw [if_pos ht0]
      exact ⟨_, rfl⟩
    · rw [if_neg ht0]
      by_cases ht8 : target_entropy = 8
      · rw [if_pos ht8]
        exact ⟨_, rfl⟩
      · rw [if_neg ht8]
        exact ⟨_, rfl⟩

/-- Witness for C7_entropy_range_check at concrete inputs: target entropy 9
fails with the invalid-parameter error and target entropy 4 produces a
payload. -/
theorem C7_entropy_range_check_witness :
    generate_random_payload_with_entropy 7 (fun _ => 0) (fun _ => 0) 3 9 =
      Except.error "Entropy must be between 0 and 8 bits per byte." ∧
    ∃ out, generate_random_payload_with_entropy 7 (fun _ => 0) (fun _ => 0) 3 4 =
      Except.ok out :=
  ⟨(C7_entropy_range_check 7 (fun _ => 0) (fun _ => 0) 3 9).1
      (Or.inr (by norm_num)),
   (C7_entropy_range_check 7 (fun _ => 0) (fun _ => 0) 3 4).2
      (by norm_num) (by norm_num)⟩

/-- Claim C6, counterexample: at size 0 the zero-entropy generator returns the
empty payload, which contains zero distinct byte values rather than exactly
one. -/
theorem C6_counterexample :
    generate_random_payload_with_entropy 7 (fun _ => 0) (fun _ => 0) 0 0 =
      Except.ok [] ∧
    ([] : List Nat).toFinset.card = 0 := by
  constructor
  · norm_num [generate_random_payload_with_entropy]
  · rfl

/-- Claim C6 (amended): for every positive size, the zero-entropy generator
returns one randomly chosen byte value repeated size times, so the output has
length exactly size and contains exactly one distinct byte value; for size 0
the output is the empty payload, which contains no distinct byte value. -/
theorem C6_zero_entropy_payload (randint : Nat) (randbits choiceIdx : Nat → Nat)
    (size : Nat) (hsize : 0 < size) :
    generate_random_payload_with_entropy randint randbits choiceIdx size 0 =
      Except.ok (List.replicate size randint) ∧
    (List.replicate size randint).length = size ∧
    (List.replicate size randint).toFinset.card = 1 := by
  refine ⟨by norm_num [generate_random_payload_with_entropy], by simp, ?_⟩
  rw [List.toFinset_replicate_of_ne_zero (Nat.pos_iff_ne_zero.mp hsize)]
  exact Finset.card_singleton _

/-- Witness for C6_zero_entropy_payload at size 3 with chosen byte 7. -/
theorem C6_zero_entropy_payload_witness :
    generate_random_payload_with_entropy 7 (fun _ => 0) (fun _ => 0) 3 0 =
      Except.ok (List.replicate 3 7) ∧
    (List.replicate 3 7).length = 3 ∧
    (List.replicate 3 7).toFinset.card = 1 :=
  C6_zero_entropy_payload 7 (fun _ => 0) (fun _ => 0) 3 (by decide)

theorem rleLoop_length_mod_two (rest : List Nat) :
    ∀ prev count, (rleLoop rest prev count).length % 2 = 0 := by
  induction rest with
  | nil => intro prev count; simp [rleLoop]
  | cons b rest ih =>
    intro prev count
    rw [rleLoop]
    split
    · exact ih _ _
    · have := ih b 1
      simp only [List.length_cons]
      omega

theorem rleLoop_two_le_length (rest : List Nat) :
    ∀ prev count, 2 ≤ (rleLoop rest prev count).length := by
  induction rest with
  | nil => intro prev count; simp [rleLoop]
  | cons b rest ih =>
    intro prev count
    rw [rleLoop]
    split
    · exact ih _ _
    · simp only [List.length_cons]
      omega

theorem rleLoop_length_of_chain (rest : List Nat) :
    ∀ prev count, List.Chain' (· ≠ ·) (prev :: rest) →
      (rleLoop rest prev count).length = 2 * (rest.length + 1) := by
  induction rest with
  | nil => intro prev count _; rfl
  | cons b rest ih =>
    intro prev count h
    have hb : prev ≠ b := (List.chain'_cons.mp h).1
    rw [rleLoop, if_neg (fun hc => hb hc.1.symm)]
    have := ih b 1 (List.chain'_cons.mp h).2
    simp only [List.length_cons, this]
    omega

theorem rleLoop_counts_sum (rest : List Nat) :
    ∀ prev count,
      ((toPairs (rleLoop rest prev count)).map Prod.snd).sum = count + rest.length := by
  induction rest with
  | nil => intro prev count; simp [rleLoop, toPairs]
  | cons b rest ih =>
    intro prev count
    rw [rleLoop]
    split
    · rw [ih]
      simp only [List.length_cons]
      omega
    · rw [toPairs]
      simp only [List.map_cons, List.sum_cons, List.length_cons, ih b 1]
      omega

theorem rleLoop_counts_bounds (rest : List Nat) :
    ∀ prev count, 1 ≤ count → count ≤ 255 →
      ∀ p ∈ toPairs (rleLoop rest prev count), 1 ≤ p.2 ∧ p.2 ≤ 255 := by
  induction rest with
  | nil =>
    intro prev count h1 h2 p hp
    simp [rleLoop, toPairs] at hp
    subst hp
    exact ⟨h1, h2⟩
  | cons b rest ih =>
    intro prev count h1 h2 p hp
    rw [rleLoop] at hp
    by_cases hcond : b = prev ∧ count < 255
    · rw [if_pos hcond] at hp
      exact ih prev (count + 1) (by omega) (by omega) p hp
    · rw [if_neg hcond, toPairs] at hp
      rcases List.mem_cons.mp hp with rfl | hp
      · exact ⟨h1, h2⟩
      · exact ih b 1 (by omega) (by omega) p hp

/-- Claim C9: for every input the run-length output length is even, is at
least 2 on non-empty input, and equals exactly twice the input length when no
two adjacent input bytes are equal. -/
theorem C9_rle_output_length (d : List Nat) :
    (compress_with_rle d).length % 2 = 0 ∧
    (d ≠ [] → 2 ≤ (compress_with_rle d).length) ∧
    (d ≠ [] → List.Chain' (· ≠ ·) d →
      (compress_with_rle d).length = 2 * d.length) := by
  cases d with
  | nil => exact ⟨rfl, fun h => absurd rfl h, fun h => absurd rfl h⟩
  | cons first rest =>
    refine ⟨rleLoop_length_mod_two rest first 1, fun _ => rleLoop_two_le_length rest first 1, ?_⟩
    intro _ hchain
    rw [compress_with_rle, rleLoop_length_of_chain rest first 1 hchain]
    simp

/-- Witness for C9_rle_output_length on the two-byte input [1, 2] with
distinct adjacent bytes. -/
theorem C9_rle_output_length_witness :
    (compress_with_rle [1, 2]).length % 2 = 0 ∧
    2 ≤ (compress_with_rle [1, 2]).length ∧
    (compress_with_rle [1, 2]).length = 2 * ([1, 2] : List Nat).length :=
  ⟨(C9_rle_output_length [1, 2]).1,
   (C9_rle_output_length [1, 2]).2.1 (by decide),
   (C9_rle_output_length [1, 2]).2.2 (by decide) (by simp)⟩

/-- Claim C10: the run-length output read as (value, count) records has all
counts in [1, 255], and the counts sum to the input length. -/
theorem C10_rle_record_invariant (d : List Nat) :
    (∀ p ∈ toPairs (compress_with_rle d), 1 ≤ p.2 ∧ p.2 ≤ 255) ∧
    ((toPairs (compress_with_rle d)).map Prod.snd).sum = d.length := by
  cases d with
  | nil => exact ⟨fun p hp => absurd hp (by simp [compress_with_rle, toPairs]), rfl⟩
  | cons first rest =>
    refine ⟨rleLoop_counts_bounds rest first 1 (by omega) (by omega), ?_⟩
    rw [compress_with_rle, rleLoop_counts_sum]
    simp only [List.length_cons]
    omega

/-- Witness for C10_rle_record_invariant on the input [5, 5, 6], whose first
record is (5, 2). -/
theorem C10_rle_record_invariant_witness :
    (1 ≤ ((5, 2) : Nat × Nat).2 ∧ ((5, 2) : Nat × Nat).2 ≤ 255) ∧
    ((toPairs (compress_with_rle [5, 5, 6])).map Prod.snd).sum =
      ([5, 5, 6] : List Nat).length :=
  ⟨(C10_rle_record_invariant [5, 5, 6]).1 (5, 2) (by decide),
   (C10_rle_record_invariant [5, 5, 6]).2⟩

theorem splitRunCounts_sum (L : Nat) : (splitRunCounts L).sum = L := by
  induction L using Nat.strong_induction_on with
  | _ L ih =>
    rw [splitRunCounts]
    split
    · simp
    · rw [List.sum_cons, ih (L - 255) (by omega)]
      omega

theorem splitRunCounts_mem (L : Nat) :
    1 ≤ L → ∀ c ∈ splitRunCounts L, 1 ≤ c ∧ c ≤ 255 := by
  induction L using Nat.strong_induction_on with
  | _ L ih =>
    intro hL c hc
    rw [splitRunCounts] at hc
    by_cases h : L ≤ 255
    · rw [if_pos h] at hc
      simp at hc
      subst hc
      exact ⟨hL, h⟩
    · rw [if_neg h] at hc
      rcases List.mem_cons.mp hc with rfl | hc
      · exact ⟨by omega, le_refl 255⟩
      · exact ih (L - 255) (by omega) (by omega) c hc

theorem splitRunCounts_ne_nil (L : Nat) : splitRunCounts L ≠ [] := by
  rw [splitRunCounts]
  split
  · simp
  · simp

theorem two_le_splitRunCounts_length (L : Nat) (h : 255 < L) :
    2 ≤ (splitRunCounts L).length := by
  rw [splitRunCounts, if_neg (by omega)]
  simp only [List.length_cons]
  have := List.length_pos.mpr (splitRunCounts_ne_nil (L - 255))
  omega

theorem expandRuns_cons (r : Nat × Nat) (rs : List (Nat × Nat)) :
    expandRuns (r :: rs) =
      (splitRunCounts r.2).map (fun c => (r.1, c)) ++ expandRuns rs := by
  simp [expandRuns]

theorem expandRuns_runsAux_add255 (rest : List Nat) (v : Nat) :
    ∀ n, 1 ≤ n →
      expandRuns (runsAux rest v (n + 255)) =
        (v, 255) :: expandRuns (runsAux rest v n) := by
  induction rest with
  | nil =>
    intro n hn
    rw [runsAux, runsAux, expandRuns_cons, expandRuns_cons]
    rw [splitRunCounts, if_neg (by omega)]
    have hsub : n + 255 - 255 = n := by omega
    rw [hsub]
    simp
  | cons b rest ih =>
    intro n hn
    rw [runsAux, runsAux]
    by_cases hb : b = v
    · rw [if_pos hb, if_pos hb]
      have harith : n + 255 + 1 = (n + 1) + 255 := by omega
      rw [harith]
      exact ih (n + 1) (by omega)
    · rw [if_neg hb, if_neg hb]
      rw [expandRuns_cons, expandRuns_cons]
      rw [splitRunCounts, if_neg (by omega)]
      have hsub : n + 255 - 255 = n := by omega
      rw [hsub]
      simp

theorem toPairs_rleLoop (rest : List Nat) :
    ∀ prev count, 1 ≤ count → count ≤ 255 →
      toPairs (rleLoop rest prev count) = expandRuns (runsAux rest prev count) := by
  induction rest with
  | nil =>
    intro prev count h1 h2
    rw [rleLoop, runsAux, expandRuns_cons]
    rw [splitRunCounts, if_pos h2]
    simp [toPairs, expandRuns]
  | cons b rest ih =>
    intro prev count h1 h2
    rw [rleLoop, runsAux]
    by_cases hb : b = prev
    · by_cases hc : count < 255
      · rw [if_pos ⟨hb, hc⟩, if_pos hb]
        exact ih prev (count + 1) (by omega) (by omega)
      · have hcount : count = 255 := by omega
        rw [if_neg (fun hand => hc hand.2), if_pos hb]
        subst hcount
        rw [toPairs, ih b 1 (by omega) (by omega)]
        have harith : (255 : Nat) + 1 = 1 + 255 := by omega
        rw [harith, expandRuns_runsAux_add255 rest prev 1 (by omega), hb]
    · rw [if_neg (fun hand => hb hand.1), if_neg hb]
      rw [toPairs, ih b 1 (by omega) (by omega), expandRuns_cons]
      rw [splitRunCounts, if_pos h2]
      simp

theorem toPairs_compress_eq_expandRuns (d : List Nat) :
    toPairs (compress_with_rle d) = expandRuns (runs d) := by
  cases d with
  | nil => rfl
  | cons first rest => exact toPairs_rleLoop rest first 1 (by omega) (by omega)

theorem runsAux_flatten (rest : List Nat) :
    ∀ v n, (runsAux rest v n).flatMap (fun r => List.replicate r.2 r.1) =
      List.replicate n v ++ rest := by
  induction rest with
  | nil => intro v n; simp [runsAux]
  | cons b rest ih =>
    intro v n
    rw [runsAux]
    by_cases hb : b = v
    · rw [if_pos hb, ih]
      subst hb
      rw [List.replicate_succ']
      simp
    · rw [if_neg hb]
      simp only [List.flatMap_cons, ih b 1]
      simp

theorem runsAux_pos (rest : List Nat) :
    ∀ v n, 1 ≤ n → ∀ r ∈ runsAux rest v n, 1 ≤ r.2 := by
  induction rest with
  | nil =>
    intro v n hn r hr
    simp [runsAux] at hr
    subst hr
    exact hn
  | cons b rest ih =>
    intro v n hn r hr
    rw [runsAux] at hr
    by_cases hb : b = v
    · rw [if_pos hb] at hr
      exact ih v (n + 1) (by omega) r hr
    · rw [if_neg hb] at hr
      rcases List.mem_cons.mp hr with rfl | hr
      · exact hn
      · exact ih b 1 (by omega) r hr

theorem runsAux_head (rest : List Nat) :
    ∀ v n, ∃ m tail, runsAux rest v n = (v, m) :: tail := by
  induction rest with
  | nil => intro v n; exact ⟨n, [], rfl⟩
  | cons b rest ih =>
    intro v n
    rw [runsAux]
    by_cases hb : b = v
    · rw [if_pos hb]
      exact ih v (n + 1)
    · rw [if_neg hb]
      exact ⟨n, runsAux rest b 1, rfl⟩

theorem runsAux_chain (rest : List Nat) :
    ∀ v n, List.Chain' (fun r s => r.1 ≠ s.1) (runsAux rest v n) := by
  induction rest with
  | nil => intro v n; simp [runsAux]
  | cons b rest ih =>
    intro v n
    rw [runsAux]
    by_cases hb : b = v
    · rw [if_pos hb]
      exact ih v (n + 1)
    · rw [if_neg hb]
      obtain ⟨m, tail, htail⟩ := runsAux_head rest b 1
      rw [htail]
      refine List.chain'_cons.mpr ⟨fun h => hb (Eq.symm h), ?_⟩
      rw [← htail]
      exact ih b 1

/-- Claim C3: the run-length coder maps the empty input to the empty output,
maps AAAA to A followed by 4 and AAB to A, 2, B, 1; and for every input, the
output read as (value, count) records is exactly the concatenation, over the
maximal runs of the input, of that run's records — records all have counts in
[1, 255] summing to the run's length, a run longer than 255 yields more than
one record, and no emitted count ever exceeds 255. The run decomposition is
genuinely the maximal one: expanding it reproduces the input, every run is
non-empty, and adjacent runs carry distinct byte values. -/
theorem C3_rle_runs :
    compress_with_rle [] = [] ∧
    compress_with_rle [65, 65, 65, 65] = [65, 4] ∧
    compress_with_rle [65, 65, 66] = [65, 2, 66, 1] ∧
    ∀ d : List Nat,
      toPairs (compress_with_rle d) = expandRuns (runs d) ∧
      (runs d).flatMap (fun r => List.replicate r.2 r.1) = d ∧
      List.Chain' (fun r s => r.1 ≠ s.1) (runs d) ∧
      (∀ r ∈ runs d,
        (splitRunCounts r.2).sum = r.2 ∧
        (∀ c ∈ splitRunCounts r.2, 1 ≤ c ∧ c ≤ 255) ∧
        (255 < r.2 → 2 ≤ (splitRunCounts r.2).length)) ∧
      (∀ p ∈ toPairs (compress_with_rle d), p.2 ≤ 255) := by
  refine ⟨rfl, by decide, by decide, ?_⟩
  intro d
  refine ⟨toPairs_compress_eq_expandRuns d, ?_, ?_, ?_, ?_⟩
  · cases d with
    | nil => rfl
    | cons first rest =>
      rw [runs, runsAux_flatten]
      simp
  · cases d with
    | nil => simp [runs]
    | cons first rest => exact runsAux_chain rest first 1
  · intro r hr
    have hpos : 1 ≤ r.2 := by
      cases d with
      | nil => simp [runs] at hr
      | cons first rest => exact runsAux_pos rest first 1 (by omega) r hr
    exact ⟨splitRunCounts_sum r.2, splitRunCounts_mem r.2 hpos,
      fun hbig => two_le_splitRunCounts_length r.2 hbig⟩
  · intro p hp
    cases d with
    | nil => simp [compress_with_rle, toPairs] at hp
    | cons first rest =>
      exact (rleLoop_counts_bounds rest first 1 (by omega) (by omega) p hp).2

/-- Witness for C3_rle_runs: the characterization instantiated on the input
[7, 7, 8], on a 300-byte run of the value 7 (split into the records (7, 255)
and (7, 45)), and on its run record (7, 300). -/
theorem C3_rle_runs_witness :
    toPairs (compress_with_rle [7, 7, 8]) = expandRuns (runs [7, 7, 8]) ∧
    (splitRunCounts ((7, 300) : Nat × Nat).2).sum = ((7, 300) : Nat × Nat).2 ∧
    2 ≤ (splitRunCounts ((7, 300) : Nat × Nat).2).length ∧
    ((7, 2) : Nat × Nat).2 ≤ 255 :=
  ⟨((C3_rle_runs.2.2.2 [7, 7, 8]).1),
   ((C3_rle_runs.2.2.2 (List.replicate 300 7)).2.2.2.1 (7, 300) (by decide)).1,
   ((C3_rle_runs.2.2.2 (List.replicate 300 7)).2.2.2.1 (7, 300) (by decide)).2.2
     (by decide),
   ((C3_rle_runs.2.2.2 [7, 7, 8]).2.2.2.2 (7, 2) (by decide))⟩

/-- Claim C4: the entropy estimator returns exactly the order-0 Shannon
entropy — the sum over each distinct byte value occurring in the data of
-p * log2 p with p = count / length — and returns exactly 0 on the empty
input without inspecting any distribution. -/
theorem C4_entropy_formula :
    (∀ d : List Nat, calculate_entropy d = shannonEntropy d) ∧
    calculate_entropy [] = 0 := by
  constructor
  · intro d
    by_cases hd : d = []
    · subst hd
      simp [calculate_entropy, shannonEntropy]
    · rw [calculate_entropy, if_neg hd]
      rfl
  · simp [calculate_entropy]

theorem list_toFinset_sum_count (l : List Nat) :
    ∑ b ∈ l.toFinset, l.count b = l.length := by
  simp

theorem calculate_entropy_nonneg (d : List Nat) : 0 ≤ calculate_entropy d := by
  rw [calculate_entropy]
  split
  · exact le_refl 0
  · apply Finset.sum_nonneg
    intro b hb
    have hp0 : (0 : ℝ) ≤ (d.count b : ℝ) / (d.length : ℝ) := by positivity
    have hp1 : (d.count b : ℝ) / (d.length : ℝ) ≤ 1 := by
      apply div_le_one_of_le₀
      · exact_mod_cast List.count_le_length b d
      · positivity
    exact neg_nonneg.mpr
      (mul_nonpos_of_nonneg_of_nonpos hp0 (Real.logb_nonpos one_lt_two hp0 hp1))

theorem calculate_entropy_le_logb_card (d : List Nat) (hd : d ≠ []) :
    calculate_entropy d ≤ Real.logb 2 (d.toFinset.card : ℝ) := by
  have hn_pos : (0 : ℝ) < (d.length : ℝ) := by
    exact_mod_cast List.length_pos.mpr hd
  have hfin : d.toFinset.Nonempty := by
    obtain ⟨a, ha⟩ := List.exists_mem_of_ne_nil d hd
    exact ⟨a, List.mem_toFinset.mpr ha⟩
  have hcard_pos : (0 : ℝ) < (d.toFinset.card : ℝ) := by
    exact_mod_cast Finset.card_pos.mpr hfin
  have hsum_counts : ∑ b ∈ d.toFinset, (d.count b : ℝ) = (d.length : ℝ) := by
    exact_mod_cast congrArg (Nat.cast : ℕ → ℝ) (list_toFinset_sum_count d)
  have hsum_p : ∑ b ∈ d.toFinset, ((d.count b : ℝ) / (d.length : ℝ)) = 1 := by
    rw [← Finset.sum_div, hsum_counts, div_self (ne_of_gt hn_pos)]
  have hlog2 : (0 : ℝ) < Real.log 2 := Real.log_pos one_lt_two
  have key : ∀ b ∈ d.toFinset,
      -(((d.count b : ℝ) / (d.length : ℝ)) *
          Real.logb 2 ((d.count b : ℝ) / (d.length : ℝ))) ≤
        ((d.count b : ℝ) / (d.length : ℝ)) * Real.logb 2 (d.toFinset.card : ℝ) +
          (1 / Real.log 2) *
            (1 / (d.toFinset.card : ℝ) - (d.count b : ℝ) / (d.length : ℝ)) := by
    intro b hb
    have hcount_pos : (0 : ℝ) < (d.count b : ℝ) := by
      exact_mod_cast List.count_pos_iff.mpr (List.mem_toFinset.mp hb)
    set p : ℝ := (d.count b : ℝ) / (d.length : ℝ) with hpdef
    set c : ℝ := (d.toFinset.card : ℝ) with hcdef
    have hp_pos : 0 < p := div_pos hcount_pos hn_pos
    have h1 : -(p * Real.logb 2 p) = p * Real.logb 2 p⁻¹ := by
      rw [Real.logb_inv]
      ring
    rw [h1]
    have hpc : p⁻¹ = (p * c)⁻¹ * c := by
      field_simp
    have h2 : Real.logb 2 p⁻¹ = Real.logb 2 ((p * c)⁻¹) + Real.logb 2 c := by
      rw [hpc, Real.logb_mul (by positivity) (ne_of_gt hcard_pos)]
    rw [h2, mul_add]
    have h3 : p * Real.logb 2 ((p * c)⁻¹) ≤ (1 / Real.log 2) * (1 / c - p) := by
      have hlog_le : Real.log ((p * c)⁻¹) ≤ (p * c)⁻¹ - 1 :=
        Real.log_le_sub_one_of_pos (by positivity)
      have hrw : p * Real.logb 2 ((p * c)⁻¹) =
          (1 / Real.log 2) * (p * Real.log ((p * c)⁻¹)) := by
        rw [← Real.log_div_log]
        ring
      rw [hrw]
      have hmul : p * ((p * c)⁻¹ - 1) = 1 / c - p := by
        field_simp
        ring
      have hbound : p * Real.log ((p * c)⁻¹) ≤ 1 / c - p := by
        calc p * Real.log ((p * c)⁻¹) ≤ p * ((p * c)⁻¹ - 1) :=
              mul_le_mul_of_nonneg_left hlog_le (le_of_lt hp_pos)
          _ = 1 / c - p := hmul
      exact mul_le_mul_of_nonneg_left hbound (by positivity)
    linarith
  rw [calculate_entropy, if_neg hd]
  refine le_trans (Finset.sum_le_sum key) ?_
  rw [Finset.sum_add_distrib]
  have e1 : ∑ b ∈ d.toFinset,
      ((d.count b : ℝ) / (d.length : ℝ)) * Real.logb 2 (d.toFinset.card : ℝ) =
      Real.logb 2 (d.toFinset.card : ℝ) := by
    rw [← Finset.sum_mul, hsum_p, one_mul]
  have e2 : ∑ b ∈ d.toFinset,
      (1 / Real.log 2) *
        (1 / (d.toFinset.card : ℝ) - (d.count b : ℝ) / (d.length : ℝ)) = 0 := by
    rw [← Finset.mul_sum, Finset.sum_sub_distrib, Finset.sum_const, hsum_p,
      nsmul_eq_mul]
    have hone : (d.toFinset.card : ℝ) * (1 / (d.toFinset.card : ℝ)) = 1 := by
      field_simp
    rw [hone, sub_self, mul_zero]
  rw [e1, e2, add_zero]

theorem calculate_entropy_le_eight (d : List Nat) (hd : d ≠ [])
    (hbytes : ∀ b ∈ d, b < 256) : calculate_entropy d ≤ 8 := by
  have hfin : d.toFinset.Nonempty := by
    obtain ⟨a, ha⟩ := List.exists_mem_of_ne_nil d hd
    exact ⟨a, List.mem_toFinset.mpr ha⟩
  have hcard_pos : 0 < d.toFinset.card := Finset.card_pos.mpr hfin
  have hcard : d.toFinset.card ≤ 256 := by
    have hsub : d.toFinset ⊆ Finset.range 256 := by
      intro b hb
      exact Finset.mem_range.mpr (hbytes b (List.mem_toFinset.mp hb))
    have := Finset.card_le_card hsub
    simpa using this
  have h1 := calculate_entropy_le_logb_card d hd
  have h2 : Real.logb 2 (d.toFinset.card : ℝ) ≤ Real.logb 2 (256 : ℝ) := by
    apply Real.logb_le_logb_of_le one_lt_two
    · exact_mod_cast hcard_pos
    · exact_mod_cast hcard
  have h3 : Real.logb 2 (256 : ℝ) = 8 := by
    have h256 : (256 : ℝ) = (2 : ℝ) ^ (8 : ℕ) := by norm_num
    rw [h256, Real.logb_pow, Real.logb_self_eq_one one_lt_two]
    norm_num
  linarith

theorem calculate_entropy_uniform (d : List Nat) (hd : d ≠ []) (m : Nat)
    (hm : ∀ b ∈ d.toFinset, d.count b = m) :
    calculate_entropy d = Real.logb 2 (d.toFinset.card : ℝ) := by
  have hn_pos : (0 : ℝ) < (d.length : ℝ) := by
    exact_mod_cast List.length_pos.mpr hd
  have hfin : d.toFinset.Nonempty := by
    obtain ⟨a, ha⟩ := List.exists_mem_of_ne_nil d hd
    exact ⟨a, List.mem_toFinset.mpr ha⟩
  have hcard_pos : (0 : ℝ) < (d.toFinset.card : ℝ) := by
    exact_mod_cast Finset.card_pos.mpr hfin
  have hm_pos : 0 < m := by
    obtain ⟨a, ha⟩ := List.exists_mem_of_ne_nil d hd
    have h1 := hm a (List.mem_toFinset.mpr ha)
    have h2 := List.count_pos_iff.mpr ha
    omega
  have hlen : d.length = d.toFinset.card * m := by
    calc d.length = ∑ b ∈ d.toFinset, d.count b := (list_toFinset_sum_count d).symm
      _ = ∑ _b ∈ d.toFinset, m := Finset.sum_congr rfl hm
      _ = d.toFinset.card * m := by rw [Finset.sum_const, smul_eq_mul]
  rw [calculate_entropy, if_neg hd]
  have hm0 : (m : ℝ) ≠ 0 := by
    exact_mod_cast Nat.pos_iff_ne_zero.mp hm_pos
  have hc0 : (d.toFinset.card : ℝ) ≠ 0 := ne_of_gt hcard_pos
  have hterm : ∀ b ∈ d.toFinset,
      -(((d.count b : ℝ) / (d.length : ℝ)) *
          Real.logb 2 ((d.count b : ℝ) / (d.length : ℝ))) =
        (1 / (d.toFinset.card : ℝ)) * Real.logb 2 (d.toFinset.card : ℝ) := by
    intro b hb
    rw [hm b hb]
    have hp : (m : ℝ) / (d.length : ℝ) = ((d.toFinset.card : ℝ))⁻¹ := by
      rw [hlen]
      push_cast
      field_simp
      ring
    rw [hp, Real.logb_inv]
    field_simp
  rw [Finset.sum_congr rfl hterm, Finset.sum_const, nsmul_eq_mul]
  field_simp

theorem calculate_entropy_single (d : List Nat) (hd : d ≠ []) (v : Nat)
    (hv : ∀ b ∈ d, b = v) : calculate_entropy d = 0 := by
  have hvmem : v ∈ d := by
    obtain ⟨a, ha⟩ := List.exists_mem_of_ne_nil d hd
    have := hv a ha
    subst this
    exact ha
  have htf : d.toFinset = {v} := by
    ext b
    simp only [List.mem_toFinset, Finset.mem_singleton]
    constructor
    · exact hv b
    · rintro rfl
      exact hvmem
  have huni : ∀ b ∈ d.toFinset, d.count b = d.count v := by
    intro b hb
    rw [htf] at hb
    rw [Finset.mem_singleton.mp hb]
  have h := calculate_entropy_uniform d hd (d.count v) huni
  rw [h, htf]
  simp

/-- Claim C5: for every non-empty byte sequence the entropy estimate lies in
[0, 8]; on a sequence consisting of one repeated byte value it is exactly 0;
and on a sequence whose distinct byte values all occur equally often it is
exactly log2 of the number of distinct values. -/
theorem C5_entropy_bounds :
    (∀ d : List Nat, d ≠ [] → (∀ b ∈ d, b < 256) →
      0 ≤ calculate_entropy d ∧ calculate_entropy d ≤ 8) ∧
    (∀ d : List Nat, d ≠ [] → (∀ b ∈ d, ∀ b' ∈ d, b = b') →
      calculate_entropy d = 0) ∧
    (∀ d : List Nat, d ≠ [] → (∃ m, ∀ b ∈ d.toFinset, d.count b = m) →
      calculate_entropy d = Real.logb 2 (d.toFinset.card : ℝ)) := by
  refine ⟨?_, ?_, ?_⟩
  · intro d hd hb
    exact ⟨calculate_entropy_nonneg d, calculate_entropy_le_eight d hd hb⟩
  · intro d hd huni
    obtain ⟨a, ha⟩ := List.exists_mem_of_ne_nil d hd
    exact calculate_entropy_single d hd a (fun b hb => huni b hb a ha)
  · rintro d hd ⟨m, hm⟩
    exact calculate_entropy_uniform d hd m hm

/-- Witness for C5_entropy_bounds on concrete inputs: the two-byte sequence
[0, 1] has entropy in [0, 8] and entropy equal to log2 of its 2 distinct
values; the constant sequence [3, 3] has entropy exactly 0. -/
theorem C5_entropy_bounds_witness :
    (0 ≤ calculate_entropy [0, 1] ∧ calculate_entropy [0, 1] ≤ 8) ∧
    calculate_entropy [3, 3] = 0 ∧
    calculate_entropy [0, 1] =
      Real.logb 2 ((([0, 1] : List Nat).toFinset.card : ℝ)) :=
  ⟨C5_entropy_bounds.1 [0, 1] (by decide) (by decide),
   C5_entropy_bounds.2.1 [3, 3] (by decide) (by decide),
   C5_entropy_bounds.2.2 [0, 1] (by decide) ⟨1, by decide⟩⟩

theorem alphabetSize_pos (t : ℚ) (ht : 0 ≤ t) : 0 < alphabetSize t := by
  rw [alphabetSize]
  have h1 : (1 : ℝ) ≤ (2 : ℝ) ^ ((t : ℚ) : ℝ) := by
    rw [show (1 : ℝ) = (2 : ℝ) ^ (0 : ℝ) from (Real.rpow_zero 2).symm]
    apply Real.rpow_le_rpow_of_exponent_le one_le_two
    exact_mod_cast ht
  have h2 : (1 : ℕ) ≤ ⌊(2 : ℝ) ^ ((t : ℚ) : ℝ)⌋₊ := Nat.le_floor (by exact_mod_cast h1)
  omega

/-- Claim C8: for every size and every target entropy in [0, 8] the generated
payload has length exactly size; and for a target entropy strictly between 0
and 8, every output byte lies in the alphabet of the k smallest byte values,
where k = floor(2^target_entropy) is the alphabet size. -/
theorem C8_payload_size_and_alphabet (randint : Nat)
    (randbits choiceIdx : Nat → Nat) (size : Nat) (target_entropy : ℚ) :
    (0 ≤ target_entropy → target_entropy ≤ 8 →
      ∃ out, generate_random_payload_with_entropy randint randbits choiceIdx size
          target_entropy = Except.ok out ∧ out.length = size) ∧
    (0 < target_entropy → target_entropy < 8 →
      (∀ i, choiceIdx i < alphabetSize target_entropy) →
      ∃ out, generate_random_payload_with_entropy randint randbits choiceIdx size
          target_entropy = Except.ok out ∧ out.length = size ∧
          ∀ b ∈ out, b < alphabetSize target_entropy) := by
  constructor
  · intro h0 h8
    have hcond : ¬(target_entropy < 0 ∨ 8 < target_entropy) := by
      push_neg
      exact ⟨h0, h8⟩
    unfold generate_random_payload_with_entropy
    rw [if_neg hcond]
    by_cases ht0 : target_entropy = 0
    · rw [if_pos ht0]
      exact ⟨_, rfl, by simp⟩
    · rw [if_neg ht0]
      by_cases ht8 : target_entropy = 8
      · rw [if_pos ht8]
        exact ⟨_, rfl, by simp⟩
      · rw [if_neg ht8]
        exact ⟨_, rfl, by simp⟩
  · intro h0 h8 hch
    have hcond : ¬(target_entropy < 0 ∨ 8 < target_entropy) := by
      push_neg
      exact ⟨le_of_lt h0, le_of_lt h8⟩
    unfold generate_random_payload_with_entropy
    rw [if_neg hcond, if_neg (ne_of_gt h0), if_neg (ne_of_lt h8)]
    refine ⟨_, rfl, by simp, ?_⟩
    intro b hb
    simp only [List.mem_map, List.mem_range] at hb
    obtain ⟨i, _, hbi⟩ := hb
    have hgd : (List.range (alphabetSize target_entropy)).getD (choiceIdx i) 0 =
        choiceIdx i := by
      rw [List.getD_eq_getElem?_getD, List.getElem?_range (hch i)]
      rfl
    rw [← hbi, hgd]
    exact hch i

/-- Witness for C8_payload_size_and_alphabet at size 5 with target entropy 4
and an all-zero choice stream. -/
theorem C8_payload_size_and_alphabet_witness :
    ∃ out, generate_random_payload_with_entropy 7 (fun _ => 0) (fun _ => 0) 5 4 =
        Except.ok out ∧ out.length = 5 ∧ ∀ b ∈ out, b < alphabetSize 4 :=
  (C8_payload_size_and_alphabet 7 (fun _ => 0) (fun _ => 0) 5 4).2
    (by norm_num) (by norm_num) (fun _ => alphabetSize_pos 4 (by norm_num))

end CompressionTests
